import Mathlib

/-!
Shallow embedding of the rf-ace `Treedata` data engine (`src/treedata.cpp`)
and proofs about its filtering, split-search, bootstrap and contrast
operations.

`num_t` (C++ `double`, with NaN as the missing-value sentinel) is modelled as
`Option ℚ`: `none` is the missing sentinel (`datadefs::NUM_NAN`, recognised by
`datadefs::isNAN`), and `some q` a real value.  All split-score arithmetic is
exact rational arithmetic; every concrete value the engine computes on
NaN-free data is reproduced exactly.  32-bit text-token hashes are modelled as
`Nat` (only equality, membership and modulus are ever applied to them); one
sample's `unordered_set<uint32_t>` is modelled as the `List Nat` of its
elements in iteration order, which the begin-iterator walk in
`Feature::getHash` observes.
-/

/-- Missing-value-aware numeric type: `none` models `datadefs::NUM_NAN`. -/
abbrev NumT := Option ℚ

/-- `datadefs::isNAN`. -/
def isNAN (x : NumT) : Bool := x.isNone

/-- `Feature::Type`. -/
inductive FType where
  | NUM | CAT | TXT | UNKNOWN
deriving DecidableEq, Repr

/-- The `Feature` class: one typed column, owning its encoding state. -/
structure Feature where
  type_ : FType := .UNKNOWN
  name : String := ""
  data : List NumT := []
  mapping : List (String × ℚ) := []
  backMapping : List (ℚ × String) := []
  hashSet : List (List Nat) := []
deriving DecidableEq, Repr

instance : Inhabited Feature := ⟨{}⟩

/-- `Feature::isNumerical`. -/
def Feature.isNumerical (f : Feature) : Bool := f.type_ == .NUM

/-- `Feature::isCategorical`. -/
def Feature.isCategorical (f : Feature) : Bool := f.type_ == .CAT

/-- `Feature::isTextual`. -/
def Feature.isTextual (f : Feature) : Bool := f.type_ == .TXT

/-- `Feature::Feature(const vector<num_t>&, const string&)`: numeric column;
mapping and back-mapping are cleared. -/
def Feature.ofNum (newData : List NumT) (newName : String) : Feature :=
  { type_ := .NUM, name := newName, data := newData }

/-- Modelled from the spec: `utils::strv2catv` (utils.cpp is not under src/).
"Each distinct input string is bijectively mapped to a numeric code; the table
retains both the forward string→code map and the code→string back-map"; codes
are globally unique per distinct string, not necessarily contiguous.  We code
each string by the position of its first occurrence.  The data vector has one
code per input sample. -/
def strv2catv (strs : List String) : List NumT × List (String × ℚ) × List (ℚ × String) :=
  (strs.map (fun s => some ((strs.indexOf s : ℚ))),
   strs.dedup.map (fun s => (s, ((strs.indexOf s : ℚ)))),
   strs.dedup.map (fun s => (((strs.indexOf s : ℚ)), s)))

/-- `Feature::Feature(const vector<string>&, const string&, bool doHash)`.
`hashText` abstracts `utils::hashText` (utils.cpp is not under src/): it turns
one sample's raw text into its token-hash set.  For `doHash = true` (Textual)
only `hashSet` is filled and the shared `data` vector stays empty; for
`doHash = false` (Categorical) the strings are coded via `strv2catv`. -/
def Feature.ofStrings (hashText : String → List Nat) (newStringData : List String)
    (newName : String) (doHash : Bool) : Feature :=
  if doHash then
    { type_ := .TXT, name := newName, hashSet := newStringData.map hashText }
  else
    { type_ := .CAT, name := newName,
      data := (strv2catv newStringData).1,
      mapping := (strv2catv newStringData).2.1,
      backMapping := (strv2catv newStringData).2.2 }

/-- `Feature::getHash`: pick one token of sample `sampleIdx` by advancing the
begin iterator `integer % |hashSet[sampleIdx]|` steps.  The C++ modulus is
undefined for an empty token set; we return `none` there. -/
def Feature.getHash (f : Feature) (sampleIdx integer : Nat) : Option Nat :=
  if (f.hashSet.getD sampleIdx []).length = 0 then none
  else some ((f.hashSet.getD sampleIdx []).getD
    (integer % (f.hashSet.getD sampleIdx []).length) 0)

/-- `Feature::hasHash`: token-set membership for sample `sampleIdx`. -/
def Feature.hasHash (f : Feature) (sampleIdx : Nat) (hashIdx : Nat) : Bool :=
  (f.hashSet.getD sampleIdx []).contains hashIdx

/-- Read feature column `data` at sample `idx` (`data[idx]`); an out-of-range
read, which the C++ never performs on a well-formed table, yields the
sentinel. -/
def valAt (data : List NumT) (idx : Nat) : NumT := data.getD idx none

/-- `Treedata::getFilteredFeatureData` (single-column missing-value filter):
one pass over `sampleIcs` dropping entries whose value is missing, compacting
the index list and the parallel value list together. -/
def getFilteredFeatureData (data : List NumT) : List Nat → List Nat × List ℚ
  | [] => ([], [])
  | idx :: rest =>
    let r := getFilteredFeatureData data rest
    match valAt data idx with
    | none => r
    | some v => (idx :: r.1, v :: r.2)

/-- `Treedata::getFilteredFeatureDataPair` (pairwise missing-value filter):
one pass over `sampleIcs` dropping entries where either column's value is
missing, compacting the index list and both parallel value lists together. -/
def getFilteredFeatureDataPair (d1 d2 : List NumT) : List Nat → List Nat × List ℚ × List ℚ
  | [] => ([], [], [])
  | idx :: rest =>
    let r := getFilteredFeatureDataPair d1 d2 rest
    match valAt d1 idx, valAt d2 idx with
    | some v1, some v2 => (idx :: r.1, v1 :: r.2.1, v2 :: r.2.2)
    | none, _ => r
    | some _, none => r

/-- The name→index map (`unordered_map<string,size_t> name2idx_`), modelled as
an association list; `upsert` is `operator[]` assignment (overwrite if the key
is present, insert otherwise). -/
def upsert : List (String × Nat) → String → Nat → List (String × Nat)
  | [], k, v => [(k, v)]
  | p :: rest, k, v => if p.1 = k then (k, v) :: rest else p :: upsert rest k v

/-- `name2idx_.find(k)` (key lookup in the name→index map). -/
def lookupIdx (m : List (String × Nat)) (k : String) : Option Nat :=
  (m.find? (fun p => p.1 == k)).map (·.2)

/-- The `Treedata` class: an ordered collection of features, sample headers,
and a name→index map. -/
structure Treedata where
  useContrasts_ : Bool
  features_ : List Feature
  sampleHeaders_ : List String
  name2idx_ : List (String × Nat) := []
deriving Repr

/-- `Treedata::nFeatures`: with contrasts enabled only half the stored
features are reported. -/
def Treedata.nFeatures (td : Treedata) : Nat :=
  if td.useContrasts_ then td.features_.length / 2 else td.features_.length

/-- `Treedata::nSamples`. -/
def Treedata.nSamples (td : Treedata) : Nat := td.sampleHeaders_.length

/-- `Treedata::createContrasts`: double the feature sequence; slot `i + n`
receives a copy of feature `i` with `"_CONTRAST"` appended to its name, and
each new name is registered in the name→index map. -/
def Treedata.createContrasts (td : Treedata) : Treedata :=
  let n := td.features_.length
  let shadows := td.features_.map (fun f => { f with name := f.name ++ "_CONTRAST" })
  { td with
    features_ := td.features_ ++ shadows,
    name2idx_ := (List.range n).foldl
      (fun m i => upsert m (shadows.getD i default).name (n + i)) td.name2idx_ }

/-- `nSamples` as computed by the batch constructor:
`features_[0].data.size()`. -/
def firstLen (features : List Feature) : Nat := (features.getD 0 default).data.length

/-- `name2idx_` as built by the batch constructor's loop
(`name2idx_[features_[featureIdx].name] = featureIdx`, no duplicate check). -/
def buildNameMap (features : List Feature) : List (String × Nat) :=
  (List.range features.length).foldl
    (fun m i => upsert m (features.getD i default).name i) []

/-- `Treedata::Treedata(const vector<Feature>&, bool, const vector<string>&)`
(batch construction from typed columns).  `assert` failures abort the process
and are modelled as `Except.error`.  The C++ loop interleaves the per-feature
size assertion with the name→index insertion; a failed assertion aborts, so
this equals checking every size first and then building the map. -/
def Treedata.ofFeatures (features : List Feature) (useContrasts : Bool)
    (sampleHeaders : List String) : Except String Treedata :=
  if features.length = 0 then
    .error "assert failed: nFeatures > 0"
  else if ¬ (features.all fun f => f.data.length == firstLen features) then
    .error "assert failed: features_[featureIdx].data.size() == nSamples"
  else if firstLen features = 0 then
    .error "assert failed: nSamples > 0"
  else
    let sh := if sampleHeaders.length = 0
      then List.replicate (firstLen features) "NO_SAMPLE_ID" else sampleHeaders
    if sh.length ≠ firstLen features then
      .error "assert failed: sampleHeaders_.size() == nSamples"
    else
      let td : Treedata :=
        { useContrasts_ := useContrasts
          features_ := features
          sampleHeaders_ := sh
          name2idx_ := buildNameMap features }
      .ok (if useContrasts then td.createContrasts else td)

/-- The loop of the parsed-file constructor (`Treedata::Treedata(string
fileName, ...)`, after the out-of-scope AFM/ARFF readers have produced the
raw matrix, feature headers and feature types, here zipped into one column
list): reject a duplicate feature header, otherwise register the header and
build the typed feature from its raw string column.  `parseNum` abstracts
`utils::strv2numv` and `hashText` abstracts `utils::hashText` (utils.cpp is
not under src/). -/
def buildFromParsed (parseNum : String → NumT) (hashText : String → List Nat) :
    List (String × FType × List String) → List (String × Nat) → Nat →
    Except String (List Feature × List (String × Nat))
  | [], m, _ => .ok ([], m)
  | (hdr, ty, raw) :: rest, m, i =>
    if (lookupIdx m hdr).isSome then
      .error ("Duplicate feature header '" ++ hdr ++ "' found!")
    else
      let fOpt : Option Feature :=
        match ty with
        | FType.NUM => some (Feature.ofNum (raw.map parseNum) hdr)
        | FType.CAT => some (Feature.ofStrings hashText raw hdr false)
        | FType.TXT => some (Feature.ofStrings hashText raw hdr true)
        | FType.UNKNOWN => none
      match fOpt with
      | none => .error ("ERROR: unknown feature type for feature with header '" ++ hdr ++ "'")
      | some f =>
        match buildFromParsed parseNum hashText rest (upsert m hdr i) (i + 1) with
        | .error e => .error e
        | .ok (fs, m') => .ok (f :: fs, m')

/-- `Treedata::Treedata(string fileName, ...)` after parsing: build the typed
features with the duplicate-header check, then optionally create contrasts. -/
def Treedata.ofParsed (parseNum : String → NumT) (hashText : String → List Nat)
    (cols : List (String × FType × List String)) (sampleHeaders : List String)
    (useContrasts : Bool) : Except String Treedata :=
  match buildFromParsed parseNum hashText cols [] 0 with
  | .error e => .error e
  | .ok (fs, m) =>
    let td : Treedata :=
      { useContrasts_ := useContrasts
        features_ := fs
        sampleHeaders_ := sampleHeaders
        name2idx_ := m }
    .ok (if useContrasts then td.createContrasts else td)

/-- C3: `getFilteredFeatureDataPair` drops an index iff either feature's value
at that sample is missing, preserves the relative order of retained indices,
and returns value arrays parallel to the shrunk index list, element-wise equal
to the corresponding feature's value at the retained index. -/
theorem getFilteredFeatureDataPair_spec (d1 d2 : List NumT) (ics : List Nat) :
    (getFilteredFeatureDataPair d1 d2 ics).1
      = ics.filter (fun idx => !(isNAN (valAt d1 idx)) && !(isNAN (valAt d2 idx))) ∧
    (getFilteredFeatureDataPair d1 d2 ics).2.1
      = (getFilteredFeatureDataPair d1 d2 ics).1.map (fun idx => (valAt d1 idx).getD 0) ∧
    (getFilteredFeatureDataPair d1 d2 ics).2.2
      = (getFilteredFeatureDataPair d1 d2 ics).1.map (fun idx => (valAt d2 idx).getD 0) ∧
    (getFilteredFeatureDataPair d1 d2 ics).2.1.length
      = (getFilteredFeatureDataPair d1 d2 ics).1.length ∧
    (getFilteredFeatureDataPair d1 d2 ics).2.2.length
      = (getFilteredFeatureDataPair d1 d2 ics).1.length := by
  induction ics with
  | nil => simp [getFilteredFeatureDataPair]
  | cons idx rest ih =>
    obtain ⟨h1, h2, h3, h4, h5⟩ := ih
    cases hv1 : valAt d1 idx <;> cases hv2 : valAt d2 idx <;>
      simp [getFilteredFeatureDataPair, hv1, hv2, isNAN, h1, h2, h3, h4, h5,
        List.filter_cons]

/-- C10: `Feature::getHash` is well-defined only for a non-empty token set (it
computes `integer % |set|`, a modulo by zero otherwise); under that
precondition the returned hash is an element of the sample's token set, so
`hasHash(sampleIdx, getHash(sampleIdx, integer))` always holds. -/
theorem getHash_mem_hasHash (f : Feature) (sampleIdx integer : Nat)
    (h : f.hashSet.getD sampleIdx [] ≠ []) :
    ∃ hv, f.getHash sampleIdx integer = some hv ∧ f.hasHash sampleIdx hv = true := by
  have hlen : 0 < (f.hashSet.getD sampleIdx []).length := List.length_pos.mpr h
  have hpos : integer % (f.hashSet.getD sampleIdx []).length
      < (f.hashSet.getD sampleIdx []).length := Nat.mod_lt _ hlen
  refine ⟨(f.hashSet.getD sampleIdx []).getD
    (integer % (f.hashSet.getD sampleIdx []).length) 0, ?_, ?_⟩
  · rw [Feature.getHash, if_neg (Nat.pos_iff_ne_zero.mp hlen)]
  · have hmem : (f.hashSet.getD sampleIdx []).getD
        (integer % (f.hashSet.getD sampleIdx []).length) 0 ∈ f.hashSet.getD sampleIdx [] := by
      rw [List.getD_eq_getElem _ _ hpos]
      exact List.getElem_mem _
    exact List.elem_eq_true_of_mem hmem

/-- Concrete witness for C10. -/
theorem getHash_mem_hasHash_witness :
    ({ type_ := .TXT, hashSet := [[5, 7, 9]] } : Feature).hashSet.getD 0 [] ≠ [] ∧
    ∃ hv, ({ type_ := .TXT, hashSet := [[5, 7, 9]] } : Feature).getHash 0 4 = some hv ∧
      ({ type_ := .TXT, hashSet := [[5, 7, 9]] } : Feature).hasHash 0 hv = true :=
  ⟨by decide, getHash_mem_hasHash _ 0 4 (by decide)⟩

/-- Helper: `getD` on the right half of an append. -/
theorem getD_append_ge {α : Type _} (l1 l2 : List α) (d : α) (i : Nat)
    (h : l1.length ≤ i) : (l1 ++ l2).getD i d = l2.getD (i - l1.length) d := by
  simp [List.getD_eq_getElem?_getD, List.getElem?_append_right h]

/-- Helper: `getD` on the left half of an append. -/
theorem getD_append_lt {α : Type _} (l1 l2 : List α) (d : α) (i : Nat)
    (h : i < l1.length) : (l1 ++ l2).getD i d = l1.getD i d := by
  simp [List.getD_eq_getElem?_getD, List.getElem?_append, h]

/-- Helper: `getD` through `map` at an in-range index. -/
theorem getD_map_lt {α β : Type _} (l : List α) (f : α → β) (i : Nat)
    (h : i < l.length) (d : β) (d' : α) : (l.map f).getD i d = f (l.getD i d') := by
  simp [List.getD_eq_getElem?_getD, List.getElem?_map, List.getElem?_eq_getElem h]

/-- C7: after `createContrasts()` on a table with `n` features the feature
sequence has length `2n`; for every `i < n` the feature at `i + n` carries
value data identical to feature `i` and the name of feature `i` with
`"_CONTRAST"` appended, while feature `i` itself is unchanged; and with
contrasts enabled the public feature count `nFeatures()` reports `n`. -/
theorem createContrasts_spec (td : Treedata) (n : Nat) (hn : td.features_.length = n) :
    (td.createContrasts).features_.length = 2 * n ∧
    (∀ i, i < n →
      ((td.createContrasts).features_.getD (i + n) default).data
        = (td.features_.getD i default).data ∧
      ((td.createContrasts).features_.getD (i + n) default).name
        = (td.features_.getD i default).name ++ "_CONTRAST" ∧
      (td.createContrasts).features_.getD i default = td.features_.getD i default) ∧
    (td.useContrasts_ = true → (td.createContrasts).nFeatures = n) := by
  have hfeat : (td.createContrasts).features_
      = td.features_ ++ td.features_.map (fun f => { f with name := f.name ++ "_CONTRAST" }) :=
    rfl
  have hu : (td.createContrasts).useContrasts_ = td.useContrasts_ := rfl
  refine ⟨?_, ?_, ?_⟩
  · rw [hfeat]
    simp [hn]
    omega
  · intro i hi
    have hilt : i < td.features_.length := by omega
    have hshadow : (td.createContrasts).features_.getD (i + n) default
        = { td.features_.getD i default with
            name := (td.features_.getD i default).name ++ "_CONTRAST" } := by
      rw [hfeat, getD_append_ge _ _ _ _ (by omega), hn]
      have hsub : i + n - n = i := by omega
      rw [hsub, getD_map_lt _ _ _ hilt _ default]
    refine ⟨?_, ?_, ?_⟩
    · rw [hshadow]
    · rw [hshadow]
    · rw [hfeat, getD_append_lt _ _ _ _ hilt]
  · intro hc
    rw [Treedata.nFeatures, hu, hc, if_pos rfl, hfeat]
    simp [hn]
    omega

/-- C7 witness: a concrete one-feature table. -/
theorem createContrasts_spec_witness :
    let td : Treedata :=
      { useContrasts_ := true
        features_ := [Feature.ofNum [some 1] "x"]
        sampleHeaders_ := ["s"] }
    (td.createContrasts).features_.length = 2 * 1 ∧
    ((td.createContrasts).features_.getD (0 + 1) default).name
      = (td.features_.getD 0 default).name ++ "_CONTRAST" ∧
    (td.createContrasts).nFeatures = 1 := by
  intro td
  have h := createContrasts_spec td 1 rfl
  exact ⟨h.1, (h.2.1 0 (by omega)).2.1, h.2.2 rfl⟩

/-- Helper: one lookup step. -/
theorem lookupIdx_cons (p : String × Nat) (m : List (String × Nat)) (k : String) :
    lookupIdx (p :: m) k = if p.1 = k then some p.2 else lookupIdx m k := by
  by_cases h : p.1 = k
  · simp [lookupIdx, List.find?_cons_of_pos, h]
  · simp [lookupIdx, List.find?_cons_of_neg, h]

/-- Helper: looking up the just-written key finds the new value. -/
theorem lookupIdx_upsert_self (m : List (String × Nat)) (k : String) (v : Nat) :
    lookupIdx (upsert m k v) k = some v := by
  induction m with
  | nil => rw [upsert, lookupIdx_cons, if_pos rfl]
  | cons p rest ih =>
    rw [upsert]
    by_cases h : p.1 = k
    · rw [if_pos h, lookupIdx_cons, if_pos rfl]
    · rw [if_neg h, lookupIdx_cons, if_neg h, ih]

/-- Helper: writing one key leaves other keys' lookups unchanged. -/
theorem lookupIdx_upsert_ne (m : List (String × Nat)) (k : String) (v : Nat)
    (k' : String) (h : k' ≠ k) : lookupIdx (upsert m k v) k' = lookupIdx m k' := by
  induction m with
  | nil => rw [upsert, lookupIdx_cons, if_neg (Ne.symm h)]
  | cons p rest ih =>
    rw [upsert]
    by_cases hp : p.1 = k
    · rw [if_pos hp, lookupIdx_cons, lookupIdx_cons,
        if_neg (show ¬ ((k, v).1 = k') from Ne.symm h),
        if_neg (show ¬ (p.1 = k') from hp ▸ Ne.symm h)]
    · rw [if_neg hp, lookupIdx_cons, lookupIdx_cons, ih]

/-- Helper: if the parsed-file loop succeeds then the processed headers are
pairwise distinct and none of them was present in the incoming map. -/
theorem buildFromParsed_ok_nodup (parseNum : String → NumT)
    (hashText : String → List Nat) :
    ∀ (cols : List (String × FType × List String)) (m : List (String × Nat))
      (i : Nat) (fs : List Feature) (m' : List (String × Nat)),
      buildFromParsed parseNum hashText cols m i = .ok (fs, m') →
      (cols.map (fun c => c.1)).Nodup ∧
      ∀ h ∈ cols.map (fun c => c.1), lookupIdx m h = none
  | [], _, _, _, _ => by simp
  | (hdr, ty, raw) :: rest, m, i, fs, m' => by
    intro hok
    simp only [buildFromParsed] at hok
    by_cases hdup : (lookupIdx m hdr).isSome
    · rw [if_pos hdup] at hok
      exact absurd hok (by simp)
    · rw [if_neg hdup] at hok
      have hnone : lookupIdx m hdr = none := by
        cases hl : lookupIdx m hdr
        · rfl
        · exact absurd (by simp [hl]) hdup
      have key : ∃ fs2 m2,
          buildFromParsed parseNum hashText rest (upsert m hdr i) (i + 1)
            = .ok (fs2, m2) := by
        rcases hrec : buildFromParsed parseNum hashText rest (upsert m hdr i) (i + 1)
          with e | ⟨fs2, m2⟩
        · cases ty <;> simp [hrec] at hok
        · exact ⟨fs2, m2, rfl⟩
      obtain ⟨fs2, m2, hrec⟩ := key
      have ih := buildFromParsed_ok_nodup parseNum hashText rest
          (upsert m hdr i) (i + 1) fs2 m2 hrec
      have hrest_not_hdr : hdr ∉ rest.map (fun c => c.1) := by
        intro hmem
        have := ih.2 hdr hmem
        rw [lookupIdx_upsert_self] at this
        exact absurd this (by simp)
      have hrest_m : ∀ h ∈ rest.map (fun c => c.1), lookupIdx m h = none := by
        intro h hmem
        have hne : h ≠ hdr := fun he => hrest_not_hdr (he ▸ hmem)
        have := ih.2 h hmem
        rwa [lookupIdx_upsert_ne _ _ _ _ hne] at this
      refine ⟨?_, ?_⟩
      · rw [List.map_cons]
        exact List.nodup_cons.mpr ⟨hrest_not_hdr, ih.1⟩
      · intro h hmem
        rcases (by simpa using hmem : h = hdr ∨ h ∈ rest.map (fun c => c.1)) with rfl | hm
        · exact hnone
        · exact hrest_m h hm

/-- C4 amended claim, proved: duplicate feature names are fatally rejected on
the parsed-file construction path, while batch construction from typed
columns performs no duplicate-name check: it succeeds whenever the size
invariants hold, duplicated names included. -/
theorem duplicate_header_behavior (parseNum : String → NumT)
    (hashText : String → List Nat) (cols : List (String × FType × List String))
    (sh : List String) (uc : Bool)
    (hdup : ¬ (cols.map (fun c => c.1)).Nodup)
    (features : List Feature) (sh2 : List String) (uc2 : Bool)
    (h0 : features ≠ [])
    (hsz : ∀ f ∈ features, f.data.length = firstLen features)
    (hns : firstLen features ≠ 0)
    (hsh : sh2.length = firstLen features) :
    (∃ e, Treedata.ofParsed parseNum hashText cols sh uc = .error e) ∧
    (∃ td, Treedata.ofFeatures features uc2 sh2 = .ok td) := by
  constructor
  · rcases hb : buildFromParsed parseNum hashText cols [] 0 with e | p
    · exact ⟨e, by rw [Treedata.ofParsed, hb]⟩
    · exact absurd (buildFromParsed_ok_nodup parseNum hashText cols [] 0 p.1 p.2
        (by rw [hb])).1 hdup
  · have hlen0 : ¬ features.length = 0 := by
      simpa [List.length_eq_zero] using h0
    have hall : (features.all fun f => f.data.length == firstLen features) := by
      rw [List.all_eq_true]
      intro f hf
      simpa using hsz f hf
    have hshne : ¬ sh2.length = 0 := by omega
    rw [Treedata.ofFeatures, if_neg hlen0, if_neg (not_not_intro hall), if_neg hns]
    simp only [if_neg hshne]
    rw [if_neg (by omega : ¬ sh2.length ≠ firstLen features)]
    exact ⟨_, rfl⟩

/-- C4 counterexample: batch construction from typed columns with a
duplicated feature name succeeds — the claimed duplicate-header failure does
not happen on this path. -/
theorem batch_duplicate_name_accepted :
    ∃ td, Treedata.ofFeatures
      [Feature.ofNum [some 1] "a", Feature.ofNum [some 2] "a"] false ["s"] = .ok td :=
  ⟨_, rfl⟩

/-- C4 witness: a concrete duplicated parsed header is rejected while a
concrete batch table (size invariants holding) is accepted. -/
theorem duplicate_header_behavior_witness :
    (¬ (([("a", FType.NUM, ["1"]), ("a", FType.NUM, ["2"])].map
        (fun c => c.1)).Nodup)) ∧
    (∃ e, Treedata.ofParsed (fun _ => some 1) (fun _ => [1])
        [("a", FType.NUM, ["1"]), ("a", FType.NUM, ["2"])] [] false = .error e) ∧
    (∃ td, Treedata.ofFeatures [Feature.ofNum [some 1] "x"] false ["s"] = .ok td) := by
  have h := duplicate_header_behavior (fun _ => some 1) (fun _ => [1])
    [("a", FType.NUM, ["1"]), ("a", FType.NUM, ["2"])] [] false (by decide)
    [Feature.ofNum [some 1] "x"] ["s"] false (by decide)
    (by decide) (by decide) (by decide)
  exact ⟨by decide, h.1, h.2⟩

/-- C5: batch construction of a table whose feature vector contains a Textual
feature (built from non-empty string data) fails the constructor's own
sample-count assertions: the Textual constructor never populates the shared
`data` vector (it stays empty), while the constructor asserts that every
feature's `data` length equals `nSamples` and that `nSamples` is positive. -/
theorem batch_textual_fails (hashText : String → List Nat) (features : List Feature)
    (uc : Bool) (sh : List String) (strs : List String) (nm : String)
    (_hne : strs ≠ []) (hmem : Feature.ofStrings hashText strs nm true ∈ features) :
    ∃ e, Treedata.ofFeatures features uc sh = .error e := by
  have hdata : (Feature.ofStrings hashText strs nm true).data = [] := rfl
  have hlen0 : ¬ features.length = 0 := by
    simpa [List.length_eq_zero] using List.ne_nil_of_mem hmem
  rw [Treedata.ofFeatures, if_neg hlen0]
  by_cases hall : (features.all fun f => f.data.length == firstLen features) = true
  · have h0 : firstLen features = 0 := by
      have := List.all_eq_true.mp hall _ hmem
      exact (by simpa [hdata] using this.symm : (0 : Nat) = firstLen features).symm
    rw [if_neg (not_not_intro hall), if_pos h0]
    exact ⟨_, rfl⟩
  · rw [if_pos hall]
    exact ⟨_, rfl⟩

/-- C5 witness: a concrete two-column table with one Textual feature. -/
theorem batch_textual_fails_witness :
    ("hello" :: [] : List String) ≠ [] ∧
    Feature.ofStrings (fun _ => [1]) ["hello"] "t" true ∈
      [Feature.ofNum [some 1] "x", Feature.ofStrings (fun _ => [1]) ["hello"] "t" true] ∧
    ∃ e, Treedata.ofFeatures
      [Feature.ofNum [some 1] "x", Feature.ofStrings (fun _ => [1]) ["hello"] "t" true]
      false ["s"] = .error e := by
  refine ⟨by decide, by simp, ?_⟩
  exact batch_textual_fails (fun _ => [1])
    [Feature.ofNum [some 1] "x", Feature.ofStrings (fun _ => [1]) ["hello"] "t" true]
    false ["s"] ["hello"] "t" (by decide) (by simp)

/-- The positions of the non-missing entries of a column, ascending: what the
`permuteContrasts` filtering over `utils::range(nSamples)` retains. -/
def somePositions (data : List NumT) : List Nat :=
  (List.range data.length).filter (fun i => !(isNAN (valAt data i)))

/-- The write-back loop of `permuteContrasts`
(`features_[i].data[ sampleIcs[j] ] = filteredData[j]`). -/
def writeBack (data : List NumT) : List (Nat × ℚ) → List NumT
  | [] => data
  | (idx, v) :: rest => writeBack (data.set idx (some v)) rest

/-- One iteration of the `permuteContrasts` loop on feature `f`: filter the
non-missing samples over the full sample range, permute the value list with
`pf`, write the permuted values back to their original positions.  `pf`
abstracts `utils::permute(·, random)` (utils.cpp is not under src/): it is
assumed to produce a permutation of its input. -/
def permuteOne (nSamples : Nat) (pf : List ℚ → List ℚ) (f : Feature) : Feature :=
  let r := getFilteredFeatureData f.data (List.range nSamples)
  { f with data := writeBack f.data (r.1.zip (pf r.2)) }

/-- Apply `g i` to the element at position `i` of a list (offset `start`). -/
def mapFrom (g : Nat → α → α) : Nat → List α → List α
  | _, [] => []
  | i, a :: rest => g i a :: mapFrom g (i + 1) rest

/-- `Treedata::permuteContrasts`: for each contrast feature index
`i ∈ [nFeatures, 2·nFeatures)` run one permute-and-write-back iteration;
`perm i` is the permutation drawn from the random source at iteration `i`. -/
def Treedata.permuteContrasts (td : Treedata) (perm : Nat → List ℚ → List ℚ) : Treedata :=
  { td with
    features_ := mapFrom
      (fun i f =>
        if td.nFeatures ≤ i ∧ i < 2 * td.nFeatures
        then permuteOne td.nSamples (perm i) f else f)
      0 td.features_ }

/-- Helper: what the single-column filter returns, in filter/map form. -/
theorem getFilteredFeatureData_eq (data : List NumT) (ics : List Nat) :
    (getFilteredFeatureData data ics).1 = ics.filter (fun i => !(isNAN (valAt data i))) ∧
    (getFilteredFeatureData data ics).2
      = (ics.filter (fun i => !(isNAN (valAt data i)))).map (fun i => (valAt data i).getD 0) := by
  induction ics with
  | nil => simp [getFilteredFeatureData]
  | cons idx rest ih =>
    obtain ⟨h1, h2⟩ := ih
    cases hv : valAt data idx <;>
      simp [getFilteredFeatureData, hv, isNAN, h1, h2, List.filter_cons]

/-- Helper: `somePositions` on a cons cell. -/
theorem somePositions_cons (a : NumT) (ds : List NumT) :
    somePositions (a :: ds)
      = (if (isNAN a : Bool) then [] else [0]) ++ (somePositions ds).map (· + 1) := by
  rw [somePositions, List.length_cons, List.range_succ_eq_map, List.filter_cons]
  have hcomp : ((fun i => !(isNAN (valAt (a :: ds) i))) ∘ (· + 1))
      = (fun i => !(isNAN (valAt ds i))) := by
    funext i
    simp [valAt, List.getD_cons_succ]
  rw [List.filter_map, hcomp]
  cases ha : isNAN a
  · have h0 : (!(isNAN (valAt (a :: ds) 0))) = true := by
      simp [valAt, List.getD_cons_zero, ha]
    rw [if_pos h0]
    simp [somePositions, Nat.succ_eq_add_one]
  · have h0 : ¬ ((!(isNAN (valAt (a :: ds) 0))) = true) := by
      simp [valAt, List.getD_cons_zero, ha]
    rw [if_neg h0]
    simp [somePositions, Nat.succ_eq_add_one]

/-- Replace the non-missing entries of a column, in order, by the given
values (missing entries and, if values run out, remaining entries are kept). -/
def replaceSomes : List NumT → List ℚ → List NumT
  | [], _ => []
  | none :: ds, vs => none :: replaceSomes ds vs
  | some x :: ds, [] => some x :: ds
  | some _ :: ds, v :: vs => some v :: replaceSomes ds vs

/-- Helper: writing at successor positions skips the head. -/
theorem writeBack_cons_shift (a : NumT) (ds : List NumT) (ics : List Nat) (vals : List ℚ) :
    writeBack (a :: ds) ((ics.map (· + 1)).zip vals) = a :: writeBack ds (ics.zip vals) := by
  induction ics generalizing a ds vals with
  | nil => simp [writeBack]
  | cons i ics ih =>
    cases vals with
    | nil => simp [writeBack]
    | cons v vs =>
      simp only [List.map_cons, List.zip_cons_cons, writeBack, List.set_cons_succ]
      exact ih _ _ _

/-- Helper: the write-back loop over the non-missing positions is exactly
`replaceSomes`. -/
theorem writeBack_somePositions : ∀ (data : List NumT) (vals : List ℚ),
    writeBack data ((somePositions data).zip vals) = replaceSomes data vals
  | [], vals => by simp [somePositions, writeBack, replaceSomes]
  | none :: ds, vals => by
    rw [replaceSomes, somePositions_cons]
    have hn : (isNAN (none : NumT)) = true := rfl
    rw [hn, if_pos rfl, List.nil_append, writeBack_cons_shift,
      writeBack_somePositions ds vals]
  | some x :: ds, [] => by
    rw [replaceSomes, somePositions_cons]
    simp [writeBack, List.zip_nil_right]
  | some x :: ds, v :: vs => by
    rw [replaceSomes, somePositions_cons]
    have hs : (isNAN (some x : NumT)) = false := rfl
    rw [hs, if_neg (by simp), List.cons_append, List.nil_append, List.zip_cons_cons,
      writeBack, List.set_cons_zero, writeBack_cons_shift,
      writeBack_somePositions ds vs]

/-- Helper: unfolding equation for `somePositions`. -/
theorem somePositions_def (data : List NumT) :
    somePositions data
      = (List.range data.length).filter (fun i => !(isNAN (valAt data i))) := rfl

/-- Helper: `replaceSomes` keeps the column length. -/
theorem replaceSomes_length : ∀ (ds : List NumT) (vs : List ℚ),
    (replaceSomes ds vs).length = ds.length
  | [], _ => rfl
  | none :: ds, vs => by simp [replaceSomes, replaceSomes_length ds vs]
  | some _ :: ds, [] => by simp [replaceSomes]
  | some _ :: ds, _ :: vs => by simp [replaceSomes, replaceSomes_length ds vs]

/-- Helper: `replaceSomes` keeps every missing position missing. -/
theorem replaceSomes_none : ∀ (ds : List NumT) (vs : List ℚ) (k : Nat),
    ds.getD k none = none → (replaceSomes ds vs).getD k none = none
  | [], _, k => by simp [replaceSomes]
  | none :: ds, vs, 0 => by simp [replaceSomes]
  | none :: ds, vs, k + 1 => by
    intro h
    simp only [List.getD_cons_succ] at h
    simpa [replaceSomes, List.getD_cons_succ] using replaceSomes_none ds vs k h
  | some x :: ds, [], k => by
    intro h
    simpa [replaceSomes] using h
  | some x :: ds, v :: vs, 0 => by
    intro h
    simp [List.getD_cons_zero] at h
  | some x :: ds, v :: vs, k + 1 => by
    intro h
    simp only [List.getD_cons_succ] at h
    simpa [replaceSomes, List.getD_cons_succ] using replaceSomes_none ds vs k h

/-- Helper: when fed exactly as many values as there are non-missing entries,
`replaceSomes` installs them as the new non-missing contents, in order. -/
theorem replaceSomes_filterMap : ∀ (ds : List NumT) (vs : List ℚ),
    vs.length = (ds.filterMap id).length → (replaceSomes ds vs).filterMap id = vs
  | [], vs => by
    intro h
    simp at h
    simp [replaceSomes, h]
  | none :: ds, vs => by
    intro h
    simp only [List.filterMap_cons, id] at h ⊢
    rw [replaceSomes]
    simpa using replaceSomes_filterMap ds vs (by simpa using h)
  | some x :: ds, vs => by
    intro h
    cases vs with
    | nil => simp [List.filterMap_cons] at h
    | cons v vs' =>
      rw [replaceSomes]
      simp only [List.filterMap_cons, id] at h ⊢
      simp only [List.length_cons] at h
      simpa using replaceSomes_filterMap ds vs' (by omega)

/-- Helper: reading the non-missing positions back gives the non-missing
values in order. -/
theorem somePositions_map_val : ∀ (ds : List NumT),
    (somePositions ds).map (fun i => (valAt ds i).getD 0) = ds.filterMap id
  | [] => by simp [somePositions]
  | a :: ds => by
    rw [somePositions_cons]
    have hcomp : ((fun i => (valAt (a :: ds) i).getD 0) ∘ (· + 1))
        = fun i => (valAt ds i).getD 0 := by
      funext i
      simp [valAt, List.getD_cons_succ]
    cases a with
    | none =>
      have hn : (isNAN (none : NumT)) = true := rfl
      rw [hn, if_pos rfl, List.nil_append, List.map_map, hcomp,
        somePositions_map_val ds]
      simp [List.filterMap_cons]
    | some x =>
      have hs : (isNAN (some x : NumT)) = false := rfl
      rw [hs, if_neg (by simp), List.cons_append, List.nil_append, List.map_cons,
        List.map_map, hcomp, somePositions_map_val ds]
      simp [List.filterMap_cons, valAt, List.getD_cons_zero]

/-- Helper: what one `permuteContrasts` iteration does to a feature: the
length is kept, the multiset of non-missing values is preserved (it becomes
the permuted value list), and missing positions stay missing. -/
theorem permuteOne_spec (nS : Nat) (pf : List ℚ → List ℚ) (f : Feature)
    (hlen : f.data.length = nS) (hperm : ∀ l, (pf l).Perm l) :
    (permuteOne nS pf f).data.length = f.data.length ∧
    ((permuteOne nS pf f).data.filterMap id).Perm (f.data.filterMap id) ∧
    (∀ k, f.data.getD k none = none → (permuteOne nS pf f).data.getD k none = none) := by
  subst hlen
  have h1 : (getFilteredFeatureData f.data (List.range f.data.length)).1
      = somePositions f.data := by
    rw [(getFilteredFeatureData_eq _ _).1, ← somePositions_def]
  have h2 : (getFilteredFeatureData f.data (List.range f.data.length)).2
      = f.data.filterMap id := by
    rw [(getFilteredFeatureData_eq _ _).2, ← somePositions_def, somePositions_map_val]
  have hwb : (permuteOne f.data.length pf f).data
      = replaceSomes f.data (pf (f.data.filterMap id)) := by
    show writeBack f.data
      (((getFilteredFeatureData f.data (List.range f.data.length)).1).zip
        (pf (getFilteredFeatureData f.data (List.range f.data.length)).2)) = _
    rw [h1, h2, writeBack_somePositions]
  refine ⟨?_, ?_, ?_⟩
  · rw [hwb]
    exact replaceSomes_length _ _
  · rw [hwb, replaceSomes_filterMap _ _ (hperm _).length_eq]
    exact hperm _
  · intro k hk
    rw [hwb]
    exact replaceSomes_none _ _ _ hk

/-- Helper: `mapFrom` acts pointwise. -/
theorem mapFrom_getD {α : Type _} (g : Nat → α → α) (d : α) :
    ∀ (l : List α) (i j : Nat), j < l.length →
      (mapFrom g i l).getD j d = g (i + j) (l.getD j d)
  | [], _, j => by intro h; simp at h
  | a :: rest, i, 0 => by
    intro _
    simp [mapFrom, List.getD_cons_zero]
  | a :: rest, i, j + 1 => by
    intro h
    simp only [mapFrom, List.getD_cons_succ]
    rw [mapFrom_getD g d rest (i + 1) j (by simp at h; omega)]
    have harg : i + 1 + j = i + (j + 1) := by omega
    rw [harg]

/-- Helper: in-range membership of `getD`. -/
theorem getD_mem {α : Type _} [Inhabited α] (l : List α) (i : Nat) (h : i < l.length) :
    l.getD i default ∈ l := by
  rw [List.getD_eq_getElem _ _ h]
  exact List.getElem_mem _

/-- C6: `permuteContrasts` touches only the contrast half of the feature
sequence: every real feature (index `< n`) is left entirely unchanged, and
for every contrast feature the column length is preserved, the multiset of
its non-missing values is unchanged, and every position that was missing
before still is. -/
theorem permuteContrasts_spec (td : Treedata) (perm : Nat → List ℚ → List ℚ) (n : Nat)
    (hn : td.features_.length = 2 * n) (hc : td.useContrasts_ = true)
    (hlen : ∀ f ∈ td.features_, f.data.length = td.nSamples)
    (hperm : ∀ i l, (perm i l).Perm l) :
    (∀ i, i < n →
      (td.permuteContrasts perm).features_.getD i default
        = td.features_.getD i default) ∧
    (∀ i, n ≤ i → i < 2 * n →
      (((td.permuteContrasts perm).features_.getD i default).data.filterMap id).Perm
        ((td.features_.getD i default).data.filterMap id) ∧
      ((td.permuteContrasts perm).features_.getD i default).data.length
        = (td.features_.getD i default).data.length ∧
      (∀ k, (td.features_.getD i default).data.getD k none = none →
        ((td.permuteContrasts perm).features_.getD i default).data.getD k none
          = none)) := by
  have hnf : td.nFeatures = n := by
    rw [Treedata.nFeatures, hc, if_pos rfl, hn]
    omega
  have hfeat : (td.permuteContrasts perm).features_
      = mapFrom
        (fun i f =>
          if td.nFeatures ≤ i ∧ i < 2 * td.nFeatures
          then permuteOne td.nSamples (perm i) f else f)
        0 td.features_ := rfl
  constructor
  · intro i hi
    rw [hfeat, mapFrom_getD _ _ _ _ _ (by omega), hnf, Nat.zero_add,
      if_neg (by omega)]
  · intro i hi1 hi2
    have hgd : (td.permuteContrasts perm).features_.getD i default
        = permuteOne td.nSamples (perm i) (td.features_.getD i default) := by
      rw [hfeat, mapFrom_getD _ _ _ _ _ (by omega), hnf, Nat.zero_add,
        if_pos (by omega)]
    have hmem : td.features_.getD i default ∈ td.features_ :=
      getD_mem _ _ (by omega)
    have hp := permuteOne_spec td.nSamples (perm i) (td.features_.getD i default)
      (hlen _ hmem) (hperm i)
    rw [hgd]
    exact ⟨hp.2.1, hp.1, hp.2.2⟩

/-- Concrete two-feature contrast table for the C6 witness. -/
def tdC6 : Treedata :=
  { useContrasts_ := true
    features_ := [Feature.ofNum [some 1, none] "x",
                  Feature.ofNum [some 1, none] "x_CONTRAST"]
    sampleHeaders_ := ["a", "b"] }

/-- Concrete permutation source for the C6 witness (always reverses). -/
def permC6 : Nat → List ℚ → List ℚ := fun _ l => l.reverse

/-- C6 witness: on the concrete table, the real feature is untouched and the
contrast feature keeps its value multiset and missing pattern. -/
theorem permuteContrasts_spec_witness :
    (tdC6.permuteContrasts permC6).features_.getD 0 default
      = tdC6.features_.getD 0 default ∧
    (((tdC6.permuteContrasts permC6).features_.getD 1 default).data.filterMap id).Perm
      ((tdC6.features_.getD 1 default).data.filterMap id) ∧
    ((tdC6.permuteContrasts permC6).features_.getD 1 default).data.getD 1 none
      = none := by
  have h := permuteContrasts_spec tdC6 permC6 1 rfl rfl
    (by decide) (fun _ l => List.reverse_perm l)
  exact ⟨h.1 0 (by omega), (h.2 1 (by omega) (by omega)).1,
    (h.2 1 (by omega) (by omega)).2.2 1 (by decide)⟩

/-- The sorted in-bag index list of `Treedata::bootstrapFromRealSamples`:
`nSamples = floor(sampleSize * nRealSamples)` indices are drawn from the real
(non-missing) sample indices — with replacement via `nSamples` independent
uniform draws (`allIcs[ random->integer() % nRealSamples ]`), without
replacement via the first `nSamples` entries of a uniformly permuted index
range — and sorted ascending.  `randInt j` abstracts the `j`-th
`random->integer()` draw and `permFn` abstracts `utils::permute` (the random
source and utils.cpp are external collaborators, not under src/);
`sampleSize` (C++ `double`) is modelled as `ℚ`. -/
def bootIcs (data : List NumT) (withReplacement : Bool) (sampleSize : ℚ)
    (randInt : Nat → Nat) (permFn : List Nat → List Nat) : List Nat :=
  (if withReplacement then
    (List.range (Nat.floor (sampleSize * ((somePositions data).length : ℚ)))).map
      (fun j => (somePositions data).getD (randInt j % (somePositions data).length) 0)
  else
    ((permFn (List.range (somePositions data).length)).take
      (Nat.floor (sampleSize * ((somePositions data).length : ℚ)))).map
      (fun p => (somePositions data).getD p 0)).insertionSort (· ≤ ·)

/-- The out-of-bag list of `Treedata::bootstrapFromRealSamples`:
`std::set_difference` of the (sorted, duplicate-free) real-sample index list
against the sorted in-bag list keeps exactly the real indices not drawn. -/
def bootOob (data : List NumT) (withReplacement : Bool) (sampleSize : ℚ)
    (randInt : Nat → Nat) (permFn : List Nat → List Nat) : List Nat :=
  (somePositions data).filter
    (fun x => !((bootIcs data withReplacement sampleSize randInt permFn).contains x))

/-- `Treedata::bootstrapFromRealSamples`: check the sampling parameters (the
`assert` and the fatal over-100% check are modelled as `Except.error`), then
return the sorted in-bag index list and the out-of-bag set difference. -/
def bootstrapFromRealSamples (data : List NumT) (withReplacement : Bool)
    (sampleSize : ℚ) (randInt : Nat → Nat) (permFn : List Nat → List Nat) :
    Except String (List Nat × List Nat) :=
  if ¬ (0 < sampleSize) then .error "assert failed: sampleSize > 0.0"
  else if withReplacement = false ∧ 1 < sampleSize then
    .error "when sampling without replacement, sample size must be less or equal to 100%"
  else
    .ok (bootIcs data withReplacement sampleSize randInt permFn,
         bootOob data withReplacement sampleSize randInt permFn)

/-- Helper: reading every position of a list in order reproduces it. -/
theorem map_getD_range {α : Type _} (l : List α) (d : α) :
    (List.range l.length).map (fun i => l.getD i d) = l := by
  apply List.ext_getElem
  · simp
  · intro i h1 h2
    simp [List.getD_eq_getElem _ _ h2, List.getElem?_eq_getElem h2]

/-- Helper: the non-missing positions are strictly ascending. -/
theorem somePositions_sorted (data : List NumT) :
    (somePositions data).Pairwise (· < ·) := by
  rw [somePositions_def]
  exact (List.pairwise_lt_range _).sublist (List.filter_sublist _)

/-- C8: bootstrapping without replacement at `sampleFraction = 1.0` returns
exactly the ascending list of all real (target-non-missing) sample indices
in-bag and an empty out-of-bag list; and in general the out-of-bag list
returned by any successful call is the real-sample set minus the drawn set,
ascending. -/
theorem bootstrap_spec (data : List NumT) (randInt : Nat → Nat)
    (permFn : List Nat → List Nat)
    (hperm : (permFn (List.range (somePositions data).length)).Perm
      (List.range (somePositions data).length)) :
    bootstrapFromRealSamples data false 1 randInt permFn
      = .ok (somePositions data, []) ∧
    ∀ (wr : Bool) (ss : ℚ) (ri : Nat → Nat) (pf : List Nat → List Nat)
      (ics oob : List Nat),
      bootstrapFromRealSamples data wr ss ri pf = .ok (ics, oob) →
      (∀ x, x ∈ oob ↔ x ∈ somePositions data ∧ x ∉ ics) ∧ oob.Pairwise (· < ·) := by
  constructor
  · have hics : bootIcs data false 1 randInt permFn = somePositions data := by
      rw [bootIcs, if_neg (by simp), one_mul, Nat.floor_natCast,
        List.take_of_length_le
          (le_of_eq (by rw [hperm.length_eq, List.length_range]))]
      have hsortedAll : List.Sorted (· ≤ ·) (somePositions data) :=
        (somePositions_sorted data).imp le_of_lt
      have hpermMap : ((permFn (List.range (somePositions data).length)).map
          (fun p => (somePositions data).getD p 0)).Perm (somePositions data) := by
        have h := hperm.map (fun p => (somePositions data).getD p 0)
        rwa [map_getD_range] at h
      exact List.eq_of_perm_of_sorted
        ((List.perm_insertionSort _ _).trans hpermMap)
        (List.sorted_insertionSort _ _) hsortedAll
    have hoob : bootOob data false 1 randInt permFn = [] := by
      rw [bootOob, hics]
      refine List.filter_eq_nil_iff.mpr ?_
      intro a ha
      simpa [List.elem_iff] using ha
    rw [bootstrapFromRealSamples, if_neg (by norm_num), if_neg (by simp), hics, hoob]
  · intro wr ss ri pf ics oob hok
    rw [bootstrapFromRealSamples] at hok
    by_cases h1 : ¬ (0 < ss)
    · rw [if_pos h1] at hok
      simp at hok
    · rw [if_neg h1] at hok
      by_cases h2 : wr = false ∧ 1 < ss
      · rw [if_pos h2] at hok
        simp at hok
      · rw [if_neg h2] at hok
        simp only [Except.ok.injEq, Prod.mk.injEq] at hok
        obtain ⟨hi, ho⟩ := hok
        subst hi
        subst ho
        constructor
        · intro x
          rw [bootOob, List.mem_filter]
          simp [List.elem_iff]
        · exact (somePositions_sorted data).sublist (List.filter_sublist _)

/-- C8 witness: a concrete column with one missing value, the identity
permutation. -/
theorem bootstrap_spec_witness :
    ((id (List.range (somePositions ([some 1, none, some 2] : List NumT)).length)).Perm
      (List.range (somePositions ([some 1, none, some 2] : List NumT)).length)) ∧
    bootstrapFromRealSamples ([some 1, none, some 2] : List NumT) false 1
      (fun _ => 0) id
      = .ok (somePositions ([some 1, none, some 2] : List NumT), []) :=
  ⟨List.Perm.refl _,
    (bootstrap_spec ([some 1, none, some 2] : List NumT) (fun _ => 0) id
      (List.Perm.refl _)).1⟩

/-- Exact arithmetic mean, the value the running update
`mu += (x - mu)/n` (and `mu_tot += x/n_tot`) accumulates over a group in
exact arithmetic.  Empty group: `0` (as in the C++, whose accumulator starts
at `0.0` and is never updated). -/
def listMean (l : List ℚ) : ℚ := l.sum / l.length

/-- Sum of squared per-category occurrence counts, the value
`math::incrementSquaredFrequency` (an increment from count `c` to `c+1` adds
`2c+1`) accumulates over a group. -/
def sqFreqSum (l : List ℚ) : ℚ := (l.dedup.map (fun v => ((l.count v : ℚ)) ^ 2)).sum

/-- Modelled from the spec: `math::deltaImpurity_regr` (math.hpp is not under
src/): the between-group variance `DI = (n_l·n_r/n_tot)·(mean_l − mean_r)²`,
computed from counts and group means only (`mu_tot` is part of the call
signature but the spec's closed form does not depend on it). -/
def deltaImpurity_regr (_mu_tot n_tot mu_left n_left mu_right n_right : ℚ) : ℚ :=
  n_left * n_right / n_tot * (mu_left - mu_right) ^ 2

/-- Modelled from the spec: `math::deltaImpurity_class` (math.hpp is not
under src/): the weighted Gini gain
`DI = sf_l/n_l + sf_r/n_r − sf_tot/n_tot`. -/
def deltaImpurity_class (sf_tot n_tot sf_left n_left sf_right n_right : ℚ) : ℚ :=
  sf_left / n_left + sf_right / n_right - sf_tot / n_tot

/-- `std::vector::resize(n)` on a vector of `size_t` (shrink, or grow with
value-initialised zeros). -/
def resizeTo (l : List Nat) (n : Nat) : List Nat :=
  if l.length ≤ n then l ++ List.replicate (n - l.length) 0 else l.take n

/-- `Treedata::textualFeatureSplit`: partition the current sample set by
membership of the pre-selected hash token in each sample's token set (single
linear pass, stable order: the C++ compacts left/right in place with write
positions that never pass the read position), accumulate the target
aggregate for left/right/total in the same pass, and return DI — forced to
`0.0` with the partial partitions left in the out-parameter buffers (the
left buffer is the caller's vector resized to `n_tot`, its prefix
overwritten) whenever either side ends up below `minSamples`.  The `assert`
on textuality is modelled as `Except.error`; target values are read raw
(`data[idx]`, no missing-value filtering in this function), with the missing
sentinel read as `0` for the aggregate arithmetic. -/
def textualFeatureSplit (features : List Feature) (targetIdx featureIdx : Nat)
    (hashIdx : Nat) (minSamples : Nat) (icsLeft0 icsRight : List Nat) :
    Except String (ℚ × List Nat × List Nat) :=
  if ¬ ((features.getD featureIdx default).isTextual = true) then
    .error "assert failed: features_[featureIdx].isTextual()"
  else
    let partL := icsRight.filter
      (fun idx => ((features.getD featureIdx default).hashSet.getD idx []).contains hashIdx)
    let partR := icsRight.filter
      (fun idx => !(((features.getD featureIdx default).hashSet.getD idx []).contains hashIdx))
    let x := fun idx => ((features.getD targetIdx default).data.getD idx none).getD 0
    let DI :=
      if (features.getD targetIdx default).isNumerical then
        deltaImpurity_regr (listMean (icsRight.map x)) icsRight.length
          (listMean (partL.map x)) partL.length
          (listMean (partR.map x)) partR.length
      else
        deltaImpurity_class (sqFreqSum (icsRight.map x)) icsRight.length
          (sqFreqSum (partL.map x)) partL.length
          (sqFreqSum (partR.map x)) partR.length
    if partL.length < minSamples ∨ partR.length < minSamples then
      .ok (0, partL ++ (resizeTo icsLeft0 icsRight.length).drop partL.length,
           partR ++ icsRight.drop partR.length)
    else
      .ok (DI, partL, partR)

/-- Helper: a Boolean predicate splits a list's length in two. -/
theorem length_filter_split {α : Type _} (l : List α) (p : α → Bool) :
    (l.filter p).length + (l.filter (fun a => !(p a))).length = l.length := by
  induction l with
  | nil => simp
  | cons a t ih =>
    cases h : p a <;> simp [List.filter_cons, h] <;> omega

/-- C9: `textualFeatureSplit` partitions the input samples by token
membership; if either side of the partition falls below `minSamples` the
returned DI is `0` (the partially-filled buffers are returned but must not be
used), otherwise the left list holds exactly the input samples whose token
set contains the hash, the right list the rest, and the two sizes add up to
the input size. -/
theorem textualFeatureSplit_spec (features : List Feature)
    (targetIdx featureIdx hashIdx minSamples : Nat) (icsLeft0 icsRight : List Nat)
    (htxt : (features.getD featureIdx default).isTextual = true) :
    ∃ DI L R,
      textualFeatureSplit features targetIdx featureIdx hashIdx minSamples
        icsLeft0 icsRight = .ok (DI, L, R) ∧
      (((icsRight.filter (fun idx =>
            ((features.getD featureIdx default).hashSet.getD idx []).contains
              hashIdx)).length < minSamples ∨
        (icsRight.filter (fun idx =>
            !(((features.getD featureIdx default).hashSet.getD idx []).contains
              hashIdx))).length < minSamples) → DI = 0) ∧
      (¬ ((icsRight.filter (fun idx =>
            ((features.getD featureIdx default).hashSet.getD idx []).contains
              hashIdx)).length < minSamples ∨
          (icsRight.filter (fun idx =>
            !(((features.getD featureIdx default).hashSet.getD idx []).contains
              hashIdx))).length < minSamples) →
        L = icsRight.filter (fun idx =>
            ((features.getD featureIdx default).hashSet.getD idx []).contains
              hashIdx) ∧
        R = icsRight.filter (fun idx =>
            !(((features.getD featureIdx default).hashSet.getD idx []).contains
              hashIdx)) ∧
        L.length + R.length = icsRight.length) := by
  rw [textualFeatureSplit, if_neg (not_not_intro htxt)]
  by_cases hmin : ((icsRight.filter (fun idx =>
        ((features.getD featureIdx default).hashSet.getD idx []).contains
          hashIdx)).length < minSamples ∨
      (icsRight.filter (fun idx =>
        !(((features.getD featureIdx default).hashSet.getD idx []).contains
          hashIdx))).length < minSamples)
  · rw [if_pos hmin]
    exact ⟨_, _, _, rfl, fun _ => rfl, fun h => absurd hmin h⟩
  · rw [if_neg hmin]
    refine ⟨_, _, _, rfl, fun h => absurd h hmin, fun _ => ⟨rfl, rfl, ?_⟩⟩
    exact length_filter_split icsRight _

/-- C9 witness: one textual feature with two samples, the token present only
in sample `0`, `minSamples = 1` (admissible split). -/
theorem textualFeatureSplit_spec_witness :
    (([Feature.ofNum [some 1, some 2] "y",
        { type_ := FType.TXT, name := "t", hashSet := [[5], [7]] }] :
        List Feature).getD 1 default).isTextual = true ∧
    ∃ DI L R,
      textualFeatureSplit
        [Feature.ofNum [some 1, some 2] "y",
         { type_ := FType.TXT, name := "t", hashSet := [[5], [7]] }]
        0 1 5 1 [] [0, 1] = .ok (DI, L, R) ∧ L = [0] ∧ R = [1] := by
  refine ⟨by decide, ?_⟩
  obtain ⟨DI, L, R, hok, _, hadm⟩ := textualFeatureSplit_spec
    [Feature.ofNum [some 1, some 2] "y",
     { type_ := FType.TXT, name := "t", hashSet := [[5], [7]] }]
    0 1 5 1 [] [0, 1] (by decide)
  refine ⟨DI, L, R, hok, ?_⟩
  have h := hadm (by decide)
  exact ⟨by rw [h.1]; decide, by rw [h.2.1]; decide⟩

/-- Modelled from the spec: `utils::filterSort` (utils.cpp is not under
src/): drop the missing entries of the value array and sort the survivors
ascending, stably with respect to the original order among ties; `refIcs`
receives the original positions of the survivors in sorted order.  This
returns `refIcs`; the sorted value array is recovered by mapping positions
back to values. -/
def filterSortIndices (values : List NumT) : List Nat :=
  ((List.range values.length).filter (fun p => (values.getD p none).isSome)).insertionSort
    (fun a b => (values.getD a none).getD 0 ≤ (values.getD b none).getD 0)

/-- `Treedata::getFilteredAndSortedFeatureDataPair3`: read the feature values
at `sampleIcs`, filter-sort them ascending by feature value (dropping samples
whose *feature* value is missing — this version performs no filtering on the
target), permute `sampleIcs` accordingly, and re-read the target values at
the reordered indices.  Returns the reordered index list, the target values
(raw, possibly missing) and the sorted feature values. -/
def getFilteredAndSortedFeatureDataPair3 (tdata fdata : List NumT) (ics : List Nat) :
    List Nat × List NumT × List ℚ :=
  let featureData := ics.map (fun idx => fdata.getD idx none)
  let refIcs := filterSortIndices featureData
  let ics2 := refIcs.map (fun r => ics.getD r 0)
  (ics2, ics2.map (fun idx => tdata.getD idx none),
   refIcs.map (fun r => (featureData.getD r none).getD 0))

/-- Modelled from the spec: the candidate boundaries of the numeric-feature
boundary scan (`utils::numericalFeatureSplits*Target`, utils.cpp is not
under src/): positions `b` between adjacent *distinct* sorted feature values
only, with both resulting sides at least `minSamples`. -/
def admissibleBoundaries (fv : List ℚ) (minSamples : Nat) : List Nat :=
  (List.range (fv.length - 1)).filter
    (fun b => !(fv.getD b 0 == fv.getD (b + 1) 0)
      && decide (minSamples ≤ b + 1) && decide (minSamples ≤ fv.length - (b + 1)))

/-- DI of boundary `b` for a numeric target: variance reduction from counts
and exact group means of the left prefix and right suffix of the (sorted)
carried-along target values. -/
def diNumAt (tv : List ℚ) (b : Nat) : ℚ :=
  deltaImpurity_regr (listMean tv) tv.length
    (listMean (tv.take (b + 1))) (b + 1)
    (listMean (tv.drop (b + 1))) (tv.length - (b + 1))

/-- DI of boundary `b` for a categorical target: weighted Gini gain from
counts and squared-frequency sums of the left prefix and right suffix. -/
def diCatAt (tv : List ℚ) (b : Nat) : ℚ :=
  deltaImpurity_class (sqFreqSum tv) tv.length
    (sqFreqSum (tv.take (b + 1))) (b + 1)
    (sqFreqSum (tv.drop (b + 1))) (tv.length - (b + 1))

/-- The maximizing scan: walk the admissible boundaries keeping the first
boundary of maximal DI, starting from `DI_best = 0` and
`bestSplitIdx = MAX_IDX` (modelled as `none`); a boundary is only taken on a
strict improvement, so a boundary with `DI = 0` is never selected. -/
def scanBest (di : Nat → ℚ) (cands : List Nat) : ℚ × Option Nat :=
  cands.foldl (fun acc b => if acc.1 < di b then (di b, some b) else acc) (0, none)

/-- Modelled from the spec: `utils::numericalFeatureSplitsNumericalTarget`
(utils.cpp is not under src/): scan the admissible boundaries of the sorted
feature values, maintaining running means incrementally, and return the best
DI together with the best boundary index. -/
def numericalFeatureSplitsNumericalTarget (tv fv : List ℚ) (minSamples : Nat) :
    ℚ × Option Nat :=
  scanBest (diNumAt tv) (admissibleBoundaries fv minSamples)

/-- Modelled from the spec: `utils::numericalFeatureSplitsCategoricalTarget`
(utils.cpp is not under src/): same scan with the Gini-style aggregate. -/
def numericalFeatureSplitsCategoricalTarget (tv fv : List ℚ) (minSamples : Nat) :
    ℚ × Option Nat :=
  scanBest (diCatAt tv) (admissibleBoundaries fv minSamples)

/-- The state of `sampleIcs_right` in `Treedata::numericalFeatureSplit` right
after `getFilteredAndSortedFeatureDataPair3`: the missing-filtered,
feature-ascending-sorted sample index list. -/
def nfsIcs (features : List Feature) (targetIdx featureIdx : Nat)
    (icsRight : List Nat) : List Nat :=
  (getFilteredAndSortedFeatureDataPair3 (features.getD targetIdx default).data
    (features.getD featureIdx default).data icsRight).1

/-- The sorted feature-value list `fv` of `Treedata::numericalFeatureSplit`. -/
def nfsFv (features : List Feature) (targetIdx featureIdx : Nat)
    (icsRight : List Nat) : List ℚ :=
  (getFilteredAndSortedFeatureDataPair3 (features.getD targetIdx default).data
    (features.getD featureIdx default).data icsRight).2.2

/-- The carried-along target-value list `tv` of
`Treedata::numericalFeatureSplit`, as consumed by the split scanners (a
missing target value — not filtered by pair3 — is read as `0` for the
aggregate arithmetic). -/
def nfsTv (features : List Feature) (targetIdx featureIdx : Nat)
    (icsRight : List Nat) : List ℚ :=
  ((getFilteredAndSortedFeatureDataPair3 (features.getD targetIdx default).data
    (features.getD featureIdx default).data icsRight).2.1).map (fun v => v.getD 0)

/-- The boundary scan of `Treedata::numericalFeatureSplit`, dispatched on the
target's type. -/
def nfsScan (features : List Feature) (targetIdx featureIdx minSamples : Nat)
    (icsRight : List Nat) : ℚ × Option Nat :=
  if (features.getD targetIdx default).isNumerical then
    numericalFeatureSplitsNumericalTarget (nfsTv features targetIdx featureIdx icsRight)
      (nfsFv features targetIdx featureIdx icsRight) minSamples
  else
    numericalFeatureSplitsCategoricalTarget (nfsTv features targetIdx featureIdx icsRight)
      (nfsFv features targetIdx featureIdx icsRight) minSamples

/-- `Treedata::numericalFeatureSplit`: clear the left list, filter-sort the
working sample set by feature value, bail out with `DI = 0` when fewer than
`2·minSamples` filtered samples remain or no admissible boundary is found
(`bestSplitIdx == MAX_IDX`; `splitValue` is then left unset, modelled as
`none`), otherwise split the sorted index list into the prefix of length
`bestSplitIdx + 1` and the remaining suffix and return
`splitValue = fv[bestSplitIdx]`.  Returns `(DI, left, right, splitValue)`. -/
def numericalFeatureSplit (features : List Feature)
    (targetIdx featureIdx minSamples : Nat) (icsRight : List Nat) :
    ℚ × List Nat × List Nat × Option ℚ :=
  if (nfsFv features targetIdx featureIdx icsRight).length < 2 * minSamples then
    (0, [], nfsIcs features targetIdx featureIdx icsRight, none)
  else
    match (nfsScan features targetIdx featureIdx minSamples icsRight).2 with
    | none => (0, [], nfsIcs features targetIdx featureIdx icsRight, none)
    | some b =>
      ((nfsScan features targetIdx featureIdx minSamples icsRight).1,
       (nfsIcs features targetIdx featureIdx icsRight).take (b + 1),
       (nfsIcs features targetIdx featureIdx icsRight).drop (b + 1),
       some ((nfsFv features targetIdx featureIdx icsRight).getD b 0))

/-- Helper: whatever index the maximizing scan selects was among the
candidates it walked (fold invariant). -/
theorem scanBest_mem_aux (di : Nat → ℚ) :
    ∀ (cands : List Nat) (acc : ℚ × Option Nat) (b : Nat),
      (cands.foldl (fun acc c => if acc.1 < di c then (di c, some c) else acc) acc).2
        = some b →
      b ∈ cands ∨ acc.2 = some b
  | [], _, b => fun h => Or.inr h
  | c :: cands, acc, b => fun h => by
    rcases scanBest_mem_aux di cands
        (if acc.1 < di c then (di c, some c) else acc) b h with hmem | hacc
    · exact Or.inl (List.mem_cons_of_mem _ hmem)
    · by_cases hc : acc.1 < di c
      · rw [if_pos hc] at hacc
        simp only [Option.some.injEq] at hacc
        exact Or.inl (hacc ▸ List.mem_cons_self c cands)
      · rw [if_neg hc] at hacc
        exact Or.inr hacc

/-- Helper: the selected boundary is an admissible candidate. -/
theorem scanBest_mem (di : Nat → ℚ) (cands : List Nat) (b : Nat)
    (h : (scanBest di cands).2 = some b) : b ∈ cands := by
  rcases scanBest_mem_aux di cands (0, none) b h with hmem | hacc
  · exact hmem
  · exact absurd hacc (by simp)

/-- Helper: unpacking membership in the admissible-boundary candidate list. -/
theorem admissibleBoundaries_mem (fv : List ℚ) (minSamples b : Nat)
    (h : b ∈ admissibleBoundaries fv minSamples) :
    b + 1 < fv.length ∧ fv.getD b 0 ≠ fv.getD (b + 1) 0 ∧
    minSamples ≤ b + 1 ∧ minSamples ≤ fv.length - (b + 1) := by
  rw [admissibleBoundaries, List.mem_filter, List.mem_range] at h
  obtain ⟨hrange, hcond⟩ := h
  simp only [Bool.and_eq_true, bne_iff_ne, decide_eq_true_eq, beq_iff_eq,
    Bool.not_eq_true'] at hcond
  refine ⟨by omega, ?_, hcond.1.2, hcond.2⟩
  simpa using hcond.1.1

/-- Helper: the sorted survivor positions are a permutation of the ascending
non-missing positions. -/
theorem filterSortIndices_perm (values : List NumT) :
    (filterSortIndices values).Perm
      ((List.range values.length).filter (fun p => (values.getD p none).isSome)) :=
  List.perm_insertionSort _ _

/-- Helper: every survivor position is in range. -/
theorem filterSortIndices_mem_lt (values : List NumT) (p : Nat)
    (h : p ∈ filterSortIndices values) : p < values.length := by
  have hm := (filterSortIndices_perm values).mem_iff.mp h
  rw [List.mem_filter, List.mem_range] at hm
  exact hm.1

/-- Helper: the survivor positions come out sorted by their value. -/
theorem filterSortIndices_sorted (values : List NumT) :
    (filterSortIndices values).Pairwise
      (fun a b => (values.getD a none).getD 0 ≤ (values.getD b none).getD 0) := by
  haveI : IsTotal Nat
      (fun a b => (values.getD a none).getD 0 ≤ (values.getD b none).getD 0) :=
    ⟨fun _ _ => le_total _ _⟩
  haveI : IsTrans Nat
      (fun a b => (values.getD a none).getD 0 ≤ (values.getD b none).getD 0) :=
    ⟨fun _ _ _ hab hbc => le_trans hab hbc⟩
  exact List.sorted_insertionSort _ _

/-- Helper: projections of `getFilteredAndSortedFeatureDataPair3`. -/
theorem pair3_proj (tdata fdata : List NumT) (ics : List Nat) :
    (getFilteredAndSortedFeatureDataPair3 tdata fdata ics).1
      = (filterSortIndices (ics.map (fun idx => fdata.getD idx none))).map
          (fun r => ics.getD r 0) ∧
    (getFilteredAndSortedFeatureDataPair3 tdata fdata ics).2.2
      = (filterSortIndices (ics.map (fun idx => fdata.getD idx none))).map
          (fun r => ((ics.map (fun idx => fdata.getD idx none)).getD r none).getD 0) :=
  ⟨rfl, rfl⟩

/-- Helper: the sorted index list and the sorted value list have one entry
per retained sample. -/
theorem nfsIcs_length_eq (features : List Feature) (targetIdx featureIdx : Nat)
    (icsRight : List Nat) :
    (nfsIcs features targetIdx featureIdx icsRight).length
      = (nfsFv features targetIdx featureIdx icsRight).length := by
  rw [nfsIcs, nfsFv, (pair3_proj _ _ _).1, (pair3_proj _ _ _).2]
  simp

/-- Helper: the feature-value list `fv` is ascending. -/
theorem nfsFv_sorted (features : List Feature) (targetIdx featureIdx : Nat)
    (icsRight : List Nat) :
    (nfsFv features targetIdx featureIdx icsRight).Pairwise (· ≤ ·) := by
  rw [nfsFv, (pair3_proj _ _ _).2, List.pairwise_map]
  exact filterSortIndices_sorted _

/-- Helper: in a `Pairwise (· ≤ ·)` list, earlier entries are at most later
ones. -/
theorem pairwise_le_getD (l : List ℚ) (h : l.Pairwise (· ≤ ·)) (i j : Nat)
    (hij : i ≤ j) (hj : j < l.length) : l.getD i 0 ≤ l.getD j 0 := by
  rcases Nat.eq_or_lt_of_le hij with rfl | hlt
  · exact le_refl _
  · rw [List.getD_eq_getElem _ _ (lt_of_le_of_lt hij hj), List.getD_eq_getElem _ _ hj]
    exact List.pairwise_iff_getElem.mp h i j _ _ hlt

/-- Helper: the `i`-th sorted feature value is the feature's raw value at the
`i`-th reordered sample index. -/
theorem nfsFv_getD (features : List Feature) (targetIdx featureIdx : Nat)
    (icsRight : List Nat) (i : Nat)
    (hi : i < (nfsIcs features targetIdx featureIdx icsRight).length) :
    ((features.getD featureIdx default).data.getD
        ((nfsIcs features targetIdx featureIdx icsRight).getD i 0) none).getD 0
      = (nfsFv features targetIdx featureIdx icsRight).getD i 0 := by
  have hi' : i < (filterSortIndices (icsRight.map
      (fun idx => (features.getD featureIdx default).data.getD idx none))).length := by
    rw [nfsIcs, (pair3_proj _ _ _).1, List.length_map] at hi
    exact hi
  have hr_mem : (filterSortIndices (icsRight.map
      (fun idx => (features.getD featureIdx default).data.getD idx none))).getD i 0
      ∈ filterSortIndices (icsRight.map
        (fun idx => (features.getD featureIdx default).data.getD idx none)) := by
    rw [List.getD_eq_getElem _ _ hi']
    exact List.getElem_mem _
  have hr_lt := filterSortIndices_mem_lt _ _ hr_mem
  rw [List.length_map] at hr_lt
  rw [nfsIcs, (pair3_proj _ _ _).1,
    getD_map_lt _ _ _ hi' (0 : Nat) (0 : Nat)]
  rw [nfsFv, (pair3_proj _ _ _).2,
    getD_map_lt _ _ _ hi' (0 : ℚ) (0 : Nat)]
  rw [getD_map_lt _ _ _ hr_lt none 0]

/-- Helper: reading the retained positions of `ics` back, in their filtered
order, gives the missing-filtered index list. -/
theorem filterPositions_map (ics : List Nat) (f : Nat → NumT) :
    ((List.range (ics.map f).length).filter
        (fun p => ((ics.map f).getD p none).isSome)).map (fun p => ics.getD p 0)
      = ics.filter (fun idx => (f idx).isSome) := by
  induction ics with
  | nil => simp
  | cons a t ih =>
    rw [List.map_cons, List.length_cons, List.range_succ_eq_map, List.filter_cons]
    have hcomp : ((fun p => (((f a :: t.map f) : List NumT).getD p none).isSome) ∘ Nat.succ)
        = fun p => ((t.map f).getD p none).isSome := by
      funext p
      simp [List.getD_cons_succ]
    rw [List.filter_map, hcomp]
    have hmapcomp : ((fun p => (a :: t).getD p 0) ∘ Nat.succ) = fun p => t.getD p 0 := by
      funext p
      simp [List.getD_cons_succ]
    cases hq : (f a).isSome
    · have h0 : ¬ ((((f a :: t.map f) : List NumT).getD 0 none).isSome = true) := by
        simp [List.getD_cons_zero, hq]
      rw [if_neg h0, List.map_map, hmapcomp, List.filter_cons, if_neg (by simp [hq])]
      exact ih
    · have h0 : (((f a :: t.map f) : List NumT).getD 0 none).isSome = true := by
        simp [List.getD_cons_zero, hq]
      rw [if_pos h0, List.map_cons, List.map_map, hmapcomp, List.filter_cons,
        if_pos (by simp [hq])]
      rw [ih]
      rfl

/-- Helper: the reordered sample list is a permutation of the
missing-filtered input order. -/
theorem nfsIcs_perm (features : List Feature) (targetIdx featureIdx : Nat)
    (icsRight : List Nat) :
    (nfsIcs features targetIdx featureIdx icsRight).Perm
      (icsRight.filter (fun idx =>
        ((features.getD featureIdx default).data.getD idx none).isSome)) := by
  rw [nfsIcs, (pair3_proj _ _ _).1]
  have h := (filterSortIndices_perm (icsRight.map
    (fun idx => (features.getD featureIdx default).data.getD idx none))).map
      (fun p => icsRight.getD p 0)
  rwa [filterPositions_map] at h

/-- Helper: the reordered sample list is ascending in its feature values. -/
theorem nfsIcs_map_sorted (features : List Feature) (targetIdx featureIdx : Nat)
    (icsRight : List Nat) :
    ((nfsIcs features targetIdx featureIdx icsRight).map (fun idx =>
        ((features.getD featureIdx default).data.getD idx none).getD 0)).Pairwise
      (· ≤ ·) := by
  have heq : (nfsIcs features targetIdx featureIdx icsRight).map (fun idx =>
        ((features.getD featureIdx default).data.getD idx none).getD 0)
      = nfsFv features targetIdx featureIdx icsRight := by
    rw [nfsIcs, nfsFv, (pair3_proj _ _ _).1, (pair3_proj _ _ _).2, List.map_map]
    refine List.map_congr_left ?_
    intro r hr
    have hlt := filterSortIndices_mem_lt _ _ hr
    rw [List.length_map] at hlt
    simp only [Function.comp]
    rw [getD_map_lt _ _ _ hlt none 0]
  rw [heq]
  exact nfsFv_sorted _ _ _ _

/-- C1: whenever `numericalFeatureSplit` finds an admissible boundary (it
returns a set `splitValue`), there is a boundary index `b` with
`splitValue = fv[b]`, the left list is exactly the first `b + 1` entries of
the missing-filtered feature-sorted sample list and the right list the
remaining suffix, the two sizes add up to the filtered sample count, and the
left prefix is exactly the set of positions whose feature value is
`≤ splitValue`. -/
theorem numericalFeatureSplit_found_spec (features : List Feature)
    (targetIdx featureIdx minSamples : Nat) (icsRight : List Nat)
    (DI : ℚ) (L R : List Nat) (sv : ℚ)
    (hrun : numericalFeatureSplit features targetIdx featureIdx minSamples icsRight
      = (DI, L, R, some sv)) :
    ∃ b, b + 1 < (nfsFv features targetIdx featureIdx icsRight).length ∧
      sv = (nfsFv features targetIdx featureIdx icsRight).getD b 0 ∧
      L = (nfsIcs features targetIdx featureIdx icsRight).take (b + 1) ∧
      R = (nfsIcs features targetIdx featureIdx icsRight).drop (b + 1) ∧
      L.length + R.length = (nfsIcs features targetIdx featureIdx icsRight).length ∧
      ∀ i, i < (nfsIcs features targetIdx featureIdx icsRight).length →
        (((features.getD featureIdx default).data.getD
            ((nfsIcs features targetIdx featureIdx icsRight).getD i 0) none).getD 0 ≤ sv
          ↔ i < b + 1) := by
  rw [numericalFeatureSplit] at hrun
  by_cases hlt : (nfsFv features targetIdx featureIdx icsRight).length < 2 * minSamples
  · rw [if_pos hlt] at hrun
    simp at hrun
  · rw [if_neg hlt] at hrun
    cases hb : (nfsScan features targetIdx featureIdx minSamples icsRight).2 with
    | none =>
      rw [hb] at hrun
      simp at hrun
    | some b =>
      rw [hb] at hrun
      simp only [Prod.mk.injEq, Option.some.injEq] at hrun
      obtain ⟨hDI, hL, hR, hsv⟩ := hrun
      have hbmem : b ∈ admissibleBoundaries
          (nfsFv features targetIdx featureIdx icsRight) minSamples := by
        rw [nfsScan] at hb
        by_cases htgt : ((features.getD targetIdx default).isNumerical = true)
        · rw [if_pos htgt, numericalFeatureSplitsNumericalTarget] at hb
          exact scanBest_mem _ _ _ hb
        · rw [if_neg htgt, numericalFeatureSplitsCategoricalTarget] at hb
          exact scanBest_mem _ _ _ hb
      obtain ⟨hblt, hne, _, _⟩ := admissibleBoundaries_mem _ _ _ hbmem
      have hlen := nfsIcs_length_eq features targetIdx featureIdx icsRight
      have hsorted := nfsFv_sorted features targetIdx featureIdx icsRight
      refine ⟨b, hblt, hsv.symm, hL.symm, hR.symm, ?_, ?_⟩
      · rw [← hL, ← hR, List.length_take, List.length_drop,
          Nat.min_eq_left (by omega)]
        omega
      · intro i hi
        rw [nfsFv_getD features targetIdx featureIdx icsRight i hi, ← hsv]
        constructor
        · intro hle
          by_contra hnot
          push_neg at hnot
          have h1 : (nfsFv features targetIdx featureIdx icsRight).getD (b + 1) 0
              ≤ (nfsFv features targetIdx featureIdx icsRight).getD i 0 :=
            pairwise_le_getD _ hsorted (b + 1) i hnot (by omega)
          have h2 : (nfsFv features targetIdx featureIdx icsRight).getD b 0
              ≤ (nfsFv features targetIdx featureIdx icsRight).getD (b + 1) 0 :=
            pairwise_le_getD _ hsorted b (b + 1) (by omega) hblt
          have h3 := lt_of_le_of_ne h2 hne
          linarith
        · intro hib
          exact pairwise_le_getD _ hsorted i b (by omega) (by omega)

/-- C2 amended claim, proved: when `numericalFeatureSplit` finds no
admissible boundary (`splitValue` stays unset), it returns `DI = 0`, the
left list is cleared, and the right list holds exactly the input samples
whose candidate-feature value is non-missing — but re-ordered ascending by
feature value, not in their original relative order. -/
theorem numericalFeatureSplit_nosplit_spec (features : List Feature)
    (targetIdx featureIdx minSamples : Nat) (icsRight : List Nat)
    (DI : ℚ) (L R : List Nat)
    (hrun : numericalFeatureSplit features targetIdx featureIdx minSamples icsRight
      = (DI, L, R, none)) :
    DI = 0 ∧ L = [] ∧
    R.Perm (icsRight.filter (fun idx =>
      ((features.getD featureIdx default).data.getD idx none).isSome)) ∧
    (R.map (fun idx =>
      ((features.getD featureIdx default).data.getD idx none).getD 0)).Pairwise
      (· ≤ ·) := by
  rw [numericalFeatureSplit] at hrun
  have hres : DI = 0 ∧ L = [] ∧ R = nfsIcs features targetIdx featureIdx icsRight := by
    by_cases hlt : (nfsFv features targetIdx featureIdx icsRight).length
        < 2 * minSamples
    · rw [if_pos hlt] at hrun
      simp only [Prod.mk.injEq] at hrun
      exact ⟨hrun.1.symm, hrun.2.1.symm, hrun.2.2.1.symm⟩
    · rw [if_neg hlt] at hrun
      cases hb : (nfsScan features targetIdx featureIdx minSamples icsRight).2 with
      | none =>
        rw [hb] at hrun
        simp only [Prod.mk.injEq] at hrun
        exact ⟨hrun.1.symm, hrun.2.1.symm, hrun.2.2.1.symm⟩
      | some b =>
        rw [hb] at hrun
        simp at hrun
  obtain ⟨h1, h2, h3⟩ := hres
  subst h3
  exact ⟨h1, h2, nfsIcs_perm _ _ _ _, nfsIcs_map_sorted _ _ _ _⟩

/-- C2 counterexample: with indices `[0, 1]` and feature values `5, 3`
(nothing missing) and `minSamples = 5` (no admissible boundary), the
returned right list is `[1, 0]` — sorted by feature value, not the original
relative order `[0, 1]` the claim requires. -/
theorem numericalFeatureSplit_reorders :
    numericalFeatureSplit
      [Feature.ofNum [some 1, some 2] "y", Feature.ofNum [some 5, some 3] "x"]
      0 1 5 [0, 1] = (0, [], [1, 0], none) ∧ ([1, 0] : List Nat) ≠ [0, 1] :=
  ⟨by decide, by decide⟩

/-- Concrete table for the C1 witness: numeric target `1,2,10,11` against
numeric feature `1,2,3,4`. -/
def nfsExFeatures : List Feature :=
  [Feature.ofNum [some 1, some 2, some 10, some 11] "y",
   Feature.ofNum [some 1, some 2, some 3, some 4] "x"]

/-- C1 witness: the concrete run finds the boundary between feature values
`2` and `10`-side, with `splitValue = 2`, `left = [0, 1]`, `right = [2, 3]`. -/
theorem numericalFeatureSplit_found_spec_witness :
    numericalFeatureSplit nfsExFeatures 0 1 1 [0, 1, 2, 3]
      = (81, [0, 1], [2, 3], some 2) ∧
    ∃ b, b + 1 < (nfsFv nfsExFeatures 0 1 [0, 1, 2, 3]).length ∧
      (2 : ℚ) = (nfsFv nfsExFeatures 0 1 [0, 1, 2, 3]).getD b 0 ∧
      ([0, 1] : List Nat) = (nfsIcs nfsExFeatures 0 1 [0, 1, 2, 3]).take (b + 1) ∧
      ([2, 3] : List Nat) = (nfsIcs nfsExFeatures 0 1 [0, 1, 2, 3]).drop (b + 1) ∧
      ([0, 1] : List Nat).length + ([2, 3] : List Nat).length
        = (nfsIcs nfsExFeatures 0 1 [0, 1, 2, 3]).length ∧
      ∀ i, i < (nfsIcs nfsExFeatures 0 1 [0, 1, 2, 3]).length →
        (((nfsExFeatures.getD 1 default).data.getD
            ((nfsIcs nfsExFeatures 0 1 [0, 1, 2, 3]).getD i 0) none).getD 0 ≤ (2 : ℚ)
          ↔ i < b + 1) := by
  have hd0 : diNumAt [1, 2, 10, 11] 0 = 100 / 3 := by
    rw [diNumAt, deltaImpurity_regr]
    norm_num [listMean]
  have hd1 : diNumAt [1, 2, 10, 11] 1 = 81 := by
    rw [diNumAt, deltaImpurity_regr]
    norm_num [listMean]
  have hd2 : diNumAt [1, 2, 10, 11] 2 = 100 / 3 := by
    rw [diNumAt, deltaImpurity_regr]
    norm_num [listMean]
  have hscan : scanBest (diNumAt [1, 2, 10, 11]) [0, 1, 2] = (81, some 1) := by
    rw [scanBest]
    simp only [List.foldl_cons, List.foldl_nil, hd0, hd1, hd2]
    norm_num
  have htv : nfsTv nfsExFeatures 0 1 [0, 1, 2, 3] = [1, 2, 10, 11] := by decide
  have hfv : nfsFv nfsExFeatures 0 1 [0, 1, 2, 3] = [1, 2, 3, 4] := by decide
  have hics : nfsIcs nfsExFeatures 0 1 [0, 1, 2, 3] = [0, 1, 2, 3] := by decide
  have hadm : admissibleBoundaries [1, 2, 3, 4] 1 = [0, 1, 2] := by decide
  have hsc : nfsScan nfsExFeatures 0 1 1 [0, 1, 2, 3] = (81, some 1) := by
    rw [nfsScan, if_pos (by decide), numericalFeatureSplitsNumericalTarget,
      htv, hfv, hadm, hscan]
  have hrun : numericalFeatureSplit nfsExFeatures 0 1 1 [0, 1, 2, 3]
      = (81, [0, 1], [2, 3], some 2) := by
    rw [numericalFeatureSplit, if_neg (by rw [hfv]; decide), hsc, hics, hfv]
    decide
  exact ⟨hrun,
    numericalFeatureSplit_found_spec nfsExFeatures 0 1 1 [0, 1, 2, 3]
      81 [0, 1] [2, 3] 2 hrun⟩

/-- C2 witness: the amended no-split contract evaluated on the concrete
counterexample input. -/
theorem numericalFeatureSplit_nosplit_spec_witness :
    (0 : ℚ) = 0 ∧ ([] : List Nat) = [] ∧
    ([1, 0] : List Nat).Perm ([0, 1].filter (fun idx =>
      ((([Feature.ofNum [some 1, some 2] "y",
          Feature.ofNum [some 5, some 3] "x"] : List Feature).getD 1
            default).data.getD idx none).isSome)) ∧
    (([1, 0] : List Nat).map (fun idx =>
      ((([Feature.ofNum [some 1, some 2] "y",
          Feature.ofNum [some 5, some 3] "x"] : List Feature).getD 1
            default).data.getD idx none).getD 0)).Pairwise (· ≤ ·) :=
  numericalFeatureSplit_nosplit_spec
    [Feature.ofNum [some 1, some 2] "y", Feature.ofNum [some 5, some 3] "x"]
    0 1 5 [0, 1] 0 [] [1, 0] (by decide)
